import Mathlib

/-!
Verification development for the synthetic dataset-construction subsystem of the
Semi-supervise-CBM repository (src/data/mnist_loader.py).  Python functions are
shallowly embedded as executable Lean definitions: machine integers become ℤ/ℕ,
floats become ℚ, numpy arrays become lists, and every source of randomness
(np.random.choice, np.random.uniform, np.random.randint, np.random.permutation)
becomes an explicit stream/function parameter.
-/

namespace SemiCBM

/-! ### produce_addition_set (src/data/mnist_loader.py, lines 165-290) -/

/-- Python argument `selected_digits`: either a flat list of digit values or a
list of digit lists (one per operand position). -/
inductive SelDigits where
  | flat (l : List ℤ)
  | nested (l : List (List ℤ))

/-- Normalization check at the top of `produce_addition_set` (lines 185-191),
repeated verbatim in `generate_data` (lines 518-521): a flat list is replicated
across all operand positions; a list of lists must have length `num_operands`,
otherwise a ValueError is raised.  On an empty argument Python raises an
IndexError at `selected_digits[0]` before either branch. -/
def normalizeSelectedDigits (sel : SelDigits) (numOperands : ℕ) :
    Except String (List (List ℤ)) :=
  match sel with
  | SelDigits.flat l =>
      if l.isEmpty then Except.error ("IndexError") else
      Except.ok (List.replicate numOperands l)
  | SelDigits.nested l =>
      if l.isEmpty then Except.error ("IndexError") else
      if l.length = numOperands then Except.ok l else
      Except.error ("If selected_digits is a list of lists, it must have the same length as num_operands")

/-- Last-wins remap table `dict((dig, idx) for (idx, dig) in enumerate(operand_digits))`
(lines 193-196), looked up at a digit value `d`. -/
def remapIdx (digits : List ℤ) (d : ℤ) : ℕ :=
  (((digits.enum).filter (fun p => p.2 == d)).map (fun p => p.1)).getLastD 0

/-- `total_operand_labels` for one operand (lines 199-205): the corpus labels
filtered to those lying in the operand's allowed-digit list, in corpus order. -/
def operandPool (y : List ℤ) (digits : List ℤ) : List ℤ :=
  y.filter (fun d => decide (d ∈ digits))

/-- `np.max(operand_digits)` (line 244); the source only evaluates it on
nonempty lists. -/
def listMax (l : List ℤ) : ℤ := l.foldl max (l.headD 0)

/-- The one-hot row produced by `torch.nn.functional.one_hot` (lines 230-233). -/
def oneHot (n k : ℕ) : List ℤ :=
  (List.range n).map (fun j => if j = k then 1 else 0)

/-- Concept contribution of one operand given the digit label `d` of the drawn
image (lines 224-246). -/
def conceptVals (evenConcepts : Bool) (digits : List ℤ) (d : ℤ) : List ℤ :=
  if digits.length > 2 then
    if evenConcepts then [if (remapIdx digits d) % 2 = 0 then 1 else 0]
    else oneHot digits.length (remapIdx digits d)
  else
    if evenConcepts then [if d % 2 = 0 then 1 else 0]
    else [if d = listMax digits then 1 else 0]

/-- Accumulator of the per-operand loop of lines 211-248: the growing list of
concept blocks, the running `sample_label`, and the `selected` digit list. -/
structure OperandAcc where
  concepts : List (List ℤ)
  sampleLabel : ℤ
  selected : List ℤ

/-- Body of the per-operand loop (lines 215-248) for one operand; `d` is the
digit label `total_labels[img_idx]` of the randomly drawn image. -/
def operandStep (evenConcepts : Bool) (acc : OperandAcc) (digits : List ℤ) (d : ℤ) :
    OperandAcc :=
  { concepts := acc.concepts ++ [conceptVals evenConcepts digits d]
    sampleLabel := acc.sampleLabel + d
    selected := acc.selected ++ [d] }

/-- Task label transform of lines 255-260. -/
def taskLabel (evenLabels : Bool) (thresholdLabels : Option ℤ) (rawSum : ℤ) : ℤ :=
  if evenLabels then (if rawSum % 2 = 0 then 1 else 0)
  else
    match thresholdLabels with
    | some t => if t ≤ rawSum then 1 else 0
    | none => rawSum

/-- One synthesized bundle row: its task label and its concept vector (prior to
the optional `sample_concepts` subselection and `concept_transform` of
lines 274-277). -/
structure SampleOut where
  label : ℤ
  concepts : List ℤ
  deriving DecidableEq

/-- The digit labels drawn for one sample: entry `o` is
`total_operand_labels[o][img_idx]` with `img_idx = pick o` the index returned by
`np.random.choice` (lines 221-222). -/
def chosenDigits (pools : List (List ℤ)) (pick : ℕ → ℕ) : List ℤ :=
  (pools.enum).map (fun p => (p.2).getD (pick p.1) 0)

/-- Synthesis of one composite sample (lines 210-261): the per-operand loop
folded over the operands, followed by the label transform of lines 255-260 and
the concept concatenation of line 261. -/
def synthSample (evenConcepts evenLabels : Bool) (thresholdLabels : Option ℤ)
    (sds : List (List ℤ)) (pools : List (List ℤ)) (pick : ℕ → ℕ) : SampleOut :=
  let ds := chosenDigits pools pick
  let acc := (List.zip sds ds).foldl
    (fun a p => operandStep evenConcepts a p.1 p.2) ⟨[], 0, []⟩
  ⟨taskLabel evenLabels thresholdLabels acc.sampleLabel, acc.concepts.flatten⟩

/-- `produce_addition_set` (lines 165-290), restricted to the task labels and
concept rows of the synthesized bundle.  `pick i o` is the index drawn by
`np.random.choice` for sample `i`, operand `o`.  Image assembly and the
post-processing of lines 262-290 (channel replication, transposition,
normalization, concept subselection, pixel noise) do not affect the labels or
the pre-selection concept rows treated by the claims and are omitted here. -/
def produceAdditionSet (y : List ℤ) (sel : SelDigits) (numOperands datasetSize : ℕ)
    (evenConcepts evenLabels : Bool) (thresholdLabels : Option ℤ)
    (pick : ℕ → ℕ → ℕ) : Except String (List SampleOut) :=
  match normalizeSelectedDigits sel numOperands with
  | Except.error e => Except.error e
  | Except.ok sds =>
      let pools := sds.map (operandPool y)
      Except.ok ((List.range datasetSize).map (fun i =>
        synthSample evenConcepts evenLabels thresholdLabels sds pools (pick i)))

/-- Spec-side operand width: 1 for a binary domain (at most 2 allowed digits),
the domain size for a multi-valued domain, and always 1 in even-concepts mode. -/
def conceptWidth (evenConcepts : Bool) (digits : List ℤ) : ℕ :=
  if evenConcepts then 1 else if digits.length > 2 then digits.length else 1

theorem conceptVals_length (evenConcepts : Bool) (digits : List ℤ) (d : ℤ) :
    (conceptVals evenConcepts digits d).length = conceptWidth evenConcepts digits := by
  unfold conceptVals conceptWidth oneHot
  by_cases h2 : digits.length > 2 <;> by_cases he : evenConcepts <;> simp [h2, he]

theorem foldl_operandStep (evenConcepts : Bool) :
    ∀ (ps : List (List ℤ × ℤ)) (acc : OperandAcc),
      (ps.foldl (fun a p => operandStep evenConcepts a p.1 p.2) acc).sampleLabel
          = acc.sampleLabel + (ps.map Prod.snd).sum
        ∧ (ps.foldl (fun a p => operandStep evenConcepts a p.1 p.2) acc).concepts
          = acc.concepts ++ ps.map (fun p => conceptVals evenConcepts p.1 p.2) := by
  intro ps
  induction ps with
  | nil => intro acc; simp
  | cons p rest ih =>
      intro acc
      have h := ih (operandStep evenConcepts acc p.1 p.2)
      constructor
      · rw [List.foldl_cons, h.1]
        simp [operandStep]
        ring
      · rw [List.foldl_cons, h.2]
        simp [operandStep]

theorem chosenDigits_length (pools : List (List ℤ)) (pick : ℕ → ℕ) :
    (chosenDigits pools pick).length = pools.length := by
  simp [chosenDigits]

theorem produceAdditionSet_ok (y : List ℤ) (sel : SelDigits)
    (numOperands datasetSize : ℕ) (evenConcepts evenLabels : Bool)
    (thresholdLabels : Option ℤ) (pick : ℕ → ℕ → ℕ) (sds : List (List ℤ))
    (hsds : normalizeSelectedDigits sel numOperands = Except.ok sds) :
    produceAdditionSet y sel numOperands datasetSize evenConcepts evenLabels
        thresholdLabels pick
      = Except.ok ((List.range datasetSize).map (fun i =>
          synthSample evenConcepts evenLabels thresholdLabels sds
            (sds.map (operandPool y)) (pick i))) := by
  unfold produceAdditionSet
  rw [hsds]

theorem synthSample_label (evenConcepts evenLabels : Bool) (thresholdLabels : Option ℤ)
    (sds pools : List (List ℤ)) (pick : ℕ → ℕ) (hlen : pools.length = sds.length) :
    (synthSample evenConcepts evenLabels thresholdLabels sds pools pick).label
      = taskLabel evenLabels thresholdLabels (chosenDigits pools pick).sum := by
  have hm : (List.zip sds (chosenDigits pools pick)).map Prod.snd = chosenDigits pools pick :=
    List.map_snd_zip _ _ (by rw [chosenDigits_length, hlen])
  have h := (foldl_operandStep evenConcepts
    (List.zip sds (chosenDigits pools pick)) ⟨[], 0, []⟩).1
  simp only [synthSample]
  rw [h, hm]
  ring_nf

theorem synthSample_concepts_length (evenConcepts evenLabels : Bool)
    (thresholdLabels : Option ℤ) (sds pools : List (List ℤ)) (pick : ℕ → ℕ)
    (hlen : pools.length = sds.length) :
    (synthSample evenConcepts evenLabels thresholdLabels sds pools pick).concepts.length
      = (sds.map (conceptWidth evenConcepts)).sum := by
  have hzlen : sds.length ≤ (chosenDigits pools pick).length := by
    rw [chosenDigits_length, hlen]
  have h := (foldl_operandStep evenConcepts
    (List.zip sds (chosenDigits pools pick)) ⟨[], 0, []⟩).2
  simp only [synthSample]
  rw [h]
  simp only [List.nil_append, List.length_flatten, List.map_map]
  have h1 : ((List.zip sds (chosenDigits pools pick)).map
      (List.length ∘ fun p => conceptVals evenConcepts p.1 p.2))
      = (List.zip sds (chosenDigits pools pick)).map (fun p => conceptWidth evenConcepts p.1) := by
    apply List.map_congr_left
    intro p _
    exact conceptVals_length evenConcepts p.1 p.2
  rw [h1]
  have h2 : ((List.zip sds (chosenDigits pools pick)).map (fun p => conceptWidth evenConcepts p.1))
      = ((List.zip sds (chosenDigits pools pick)).map Prod.fst).map (conceptWidth evenConcepts) := by
    rw [List.map_map]
    rfl
  rw [h2, List.map_fst_zip _ _ hzlen]

/-- C1: for every sample synthesized by `produce_addition_set`, the task label
equals the raw digit-label sum of the chosen operands when `even_labels` is
false and `threshold_labels` is `None`; the parity indicator (1 iff the sum is
even) when `even_labels` is true; and the indicator of `sum ≥ threshold` when
`threshold_labels` is set and `even_labels` is false (the source applies the
three transforms mutually exclusively, with `even_labels` taking precedence,
lines 255-260). -/
theorem produce_addition_set_label_modes
    (y : List ℤ) (sel : SelDigits) (numOperands datasetSize : ℕ)
    (evenConcepts evenLabels : Bool) (thresholdLabels : Option ℤ)
    (pick : ℕ → ℕ → ℕ) (out : List SampleOut) (sds : List (List ℤ))
    (hsds : normalizeSelectedDigits sel numOperands = Except.ok sds)
    (hok : produceAdditionSet y sel numOperands datasetSize evenConcepts evenLabels
      thresholdLabels pick = Except.ok out)
    (i : ℕ) (hi : i < out.length) :
    (evenLabels = false → thresholdLabels = none →
        out[i].label = (chosenDigits (sds.map (operandPool y)) (pick i)).sum)
      ∧ (evenLabels = true →
        out[i].label
          = (if (chosenDigits (sds.map (operandPool y)) (pick i)).sum % 2 = 0
              then 1 else 0))
      ∧ (evenLabels = false → ∀ t, thresholdLabels = some t →
        out[i].label
          = (if t ≤ (chosenDigits (sds.map (operandPool y)) (pick i)).sum
              then 1 else 0)) := by
  rw [produceAdditionSet_ok y sel numOperands datasetSize evenConcepts evenLabels
    thresholdLabels pick sds hsds] at hok
  have hout := Except.ok.inj hok
  subst hout
  simp only [List.getElem_map, List.getElem_range]
  rw [synthSample_label evenConcepts evenLabels thresholdLabels sds
    (sds.map (operandPool y)) (pick i) (by simp)]
  refine ⟨?_, ?_, ?_⟩
  · intro he ht; rw [he, ht]; simp [taskLabel]
  · intro he; rw [he]; simp [taskLabel]
  · intro he t ht; rw [he, ht]; simp [taskLabel]

theorem produce_addition_set_label_modes_witness :
    normalizeSelectedDigits (SelDigits.flat [0, 1]) 2 = Except.ok [[0, 1], [0, 1]]
      ∧ produceAdditionSet [0, 1, 2] (SelDigits.flat [0, 1]) 2 1 false false none
          (fun _ _ => 1) = Except.ok [⟨2, [1, 1]⟩]
      ∧ ([(⟨2, [1, 1]⟩ : SampleOut)])[0].label
          = (chosenDigits ([[0, 1], [0, 1]].map (operandPool [0, 1, 2])) (fun _ => 1)).sum := by
  refine ⟨rfl, rfl, ?_⟩
  have h := produce_addition_set_label_modes [0, 1, 2] (SelDigits.flat [0, 1]) 2 1 false
    false none (fun _ _ => 1) [⟨2, [1, 1]⟩] [[0, 1], [0, 1]] rfl rfl 0 Nat.one_pos
  exact h.1 rfl rfl

/-- C2: for every bundle synthesized by `produce_addition_set` (before concept
subselection or `concept_transform`), the concept-vector width equals the sum
over operands of the operand width: 1 if the operand's allowed-digit list has
at most 2 members, its size otherwise, and 1 for every operand in
even-concepts mode (lines 224-246, 261). -/
theorem produce_addition_set_concept_width
    (y : List ℤ) (sel : SelDigits) (numOperands datasetSize : ℕ)
    (evenConcepts evenLabels : Bool) (thresholdLabels : Option ℤ)
    (pick : ℕ → ℕ → ℕ) (out : List SampleOut) (sds : List (List ℤ))
    (hsds : normalizeSelectedDigits sel numOperands = Except.ok sds)
    (hok : produceAdditionSet y sel numOperands datasetSize evenConcepts evenLabels
      thresholdLabels pick = Except.ok out)
    (i : ℕ) (hi : i < out.length) :
    out[i].concepts.length = (sds.map (conceptWidth evenConcepts)).sum := by
  rw [produceAdditionSet_ok y sel numOperands datasetSize evenConcepts evenLabels
    thresholdLabels pick sds hsds] at hok
  have hout := Except.ok.inj hok
  subst hout
  simp only [List.getElem_map, List.getElem_range]
  exact synthSample_concepts_length evenConcepts evenLabels thresholdLabels sds
    (sds.map (operandPool y)) (pick i) (by simp)

theorem produce_addition_set_concept_width_witness :
    normalizeSelectedDigits (SelDigits.flat [0, 1, 2]) 2 = Except.ok [[0, 1, 2], [0, 1, 2]]
      ∧ produceAdditionSet [0, 1, 2, 3] (SelDigits.flat [0, 1, 2]) 2 1 false false none
          (fun _ _ => 0) = Except.ok [⟨0, [1, 0, 0, 1, 0, 0]⟩]
      ∧ ([(⟨0, [1, 0, 0, 1, 0, 0]⟩ : SampleOut)])[0].concepts.length
          = ([[0, 1, 2], [0, 1, 2]].map (conceptWidth false)).sum := by
  refine ⟨rfl, rfl, ?_⟩
  exact produce_addition_set_concept_width [0, 1, 2, 3] (SelDigits.flat [0, 1, 2]) 2 1
    false false none (fun _ _ => 0) [⟨0, [1, 0, 0, 1, 0, 0]⟩] [[0, 1, 2], [0, 1, 2]]
    rfl rfl 0 Nat.one_pos

/-- C9: `produce_addition_set` (lines 185-191) — and the identical check in
`generate_data` (lines 518-521), both embedded by `normalizeSelectedDigits` —
raises a ValueError exactly when `selected_digits` is a nonempty list of lists
whose length differs from `num_operands`; a flat list is replicated across all
operand positions without raising, and a list of lists of length exactly
`num_operands` passes the check. -/
theorem produce_addition_set_selected_digits_check
    (y : List ℤ) (numOperands datasetSize : ℕ) (evenConcepts evenLabels : Bool)
    (thresholdLabels : Option ℤ) (pick : ℕ → ℕ → ℕ) :
    (∀ l : List (List ℤ), l ≠ [] → l.length ≠ numOperands →
        produceAdditionSet y (SelDigits.nested l) numOperands datasetSize evenConcepts
          evenLabels thresholdLabels pick
          = Except.error ("If selected_digits is a list of lists, it must have the same length as num_operands"))
      ∧ (∀ l : List ℤ, l ≠ [] →
        produceAdditionSet y (SelDigits.flat l) numOperands datasetSize evenConcepts
          evenLabels thresholdLabels pick
          = Except.ok ((List.range datasetSize).map (fun i =>
              synthSample evenConcepts evenLabels thresholdLabels
                (List.replicate numOperands l)
                ((List.replicate numOperands l).map (operandPool y)) (pick i))))
      ∧ (∀ l : List (List ℤ), l ≠ [] → l.length = numOperands →
        ∃ res, produceAdditionSet y (SelDigits.nested l) numOperands datasetSize
          evenConcepts evenLabels thresholdLabels pick = Except.ok res) := by
  refine ⟨?_, ?_, ?_⟩
  · intro l hne hlen
    unfold produceAdditionSet normalizeSelectedDigits
    simp [hne, hlen]
  · intro l hne
    apply produceAdditionSet_ok
    unfold normalizeSelectedDigits
    simp [hne]
  · intro l hne hlen
    refine ⟨_, produceAdditionSet_ok y (SelDigits.nested l) numOperands datasetSize
      evenConcepts evenLabels thresholdLabels pick l ?_⟩
    unfold normalizeSelectedDigits
    simp [hne, hlen]

theorem produce_addition_set_selected_digits_check_witness :
    produceAdditionSet [0, 1] (SelDigits.nested [[0], [1], [2]]) 2 1 false false none
        (fun _ _ => 0)
      = Except.error ("If selected_digits is a list of lists, it must have the same length as num_operands")
      ∧ ∃ res, produceAdditionSet [0, 1] (SelDigits.nested [[0], [1]]) 2 1 false false none
        (fun _ _ => 0) = Except.ok res := by
  constructor
  · exact (produce_addition_set_selected_digits_check [0, 1] 2 1 false false none
      (fun _ _ => 0)).1 [[0], [1], [2]] (by simp) (by norm_num)
  · exact (produce_addition_set_selected_digits_check [0, 1] 2 1 false false none
      (fun _ _ => 0)).2.2 [[0], [1]] (by simp) (by norm_num)

/-! ### get_ss_components (src/data/mnist_loader.py, lines 12-76) -/

/-- Training-split stratification (lines 33-46): iterate the samples in dataset
order, marking a sample labeled while its class's running labeled count `lc` is
still below `labeled_ratio * class_count`.  `cnt` is the per-class total count
computed up front on lines 36-38. -/
def stratifyGo (r : ℚ) (cnt : ℤ → ℕ) : (ℤ → ℕ) → List ℤ → List Bool
  | _, [] => []
  | lc, yv :: rest =>
      if (lc yv : ℚ) < r * (cnt yv : ℚ) then
        true :: stratifyGo r cnt (Function.update lc yv (lc yv + 1)) rest
      else
        false :: stratifyGo r cnt lc rest

/-- The labeled/unlabeled flags produced for a training split (`l_choice`). -/
def stratify (r : ℚ) (ys : List ℤ) : List Bool :=
  stratifyGo r (fun k => ys.count k) (fun _ => 0) ys

/-- Spec-side view: the flags of the class-`k` samples, in dataset order. -/
def classFlags (r : ℚ) (ys : List ℤ) (k : ℤ) : List Bool :=
  ((ys.zip (stratify r ys)).filter (fun p => p.1 == k)).map Prod.snd

theorem stratifyGo_classFlags (r : ℚ) (cnt : ℤ → ℕ) (k : ℤ) :
    ∀ (ys : List ℤ) (lc : ℤ → ℕ),
      ((ys.zip (stratifyGo r cnt lc ys)).filter (fun p => p.1 == k)).map Prod.snd
        = List.replicate (min (ys.count k) (⌈r * (cnt k : ℚ)⌉₊ - lc k)) true
          ++ List.replicate
              (ys.count k - min (ys.count k) (⌈r * (cnt k : ℚ)⌉₊ - lc k)) false := by
  intro ys
  induction ys with
  | nil => intro lc; simp [stratifyGo]
  | cons yv rest ih =>
      intro lc
      by_cases hyk : yv = k
      · subst hyk
        by_cases hc : (lc yv : ℚ) < r * (cnt yv : ℚ)
        · have hCl : lc yv < ⌈r * (cnt yv : ℚ)⌉₊ := Nat.lt_ceil.mpr hc
          rw [stratifyGo, if_pos hc]
          rw [List.zip_cons_cons, List.filter_cons_of_pos (by simp), List.map_cons]
          rw [ih (Function.update lc yv (lc yv + 1))]
          rw [Function.update_same]
          rw [List.count_cons_self]
          have e1 : min (rest.count yv + 1) (⌈r * (cnt yv : ℚ)⌉₊ - lc yv)
              = (min (rest.count yv) (⌈r * (cnt yv : ℚ)⌉₊ - (lc yv + 1))) + 1 := by
            omega
          have e2 : rest.count yv + 1
                - (min (rest.count yv) (⌈r * (cnt yv : ℚ)⌉₊ - (lc yv + 1)) + 1)
              = rest.count yv
                - min (rest.count yv) (⌈r * (cnt yv : ℚ)⌉₊ - (lc yv + 1)) := by
            omega
          rw [e1, e2, List.replicate_succ, List.cons_append]
        · have hCle : ⌈r * (cnt yv : ℚ)⌉₊ ≤ lc yv := Nat.ceil_le.mpr (not_lt.mp hc)
          rw [stratifyGo, if_neg hc]
          rw [List.zip_cons_cons, List.filter_cons_of_pos (by simp), List.map_cons]
          rw [ih lc]
          rw [List.count_cons_self]
          have e0 : ⌈r * (cnt yv : ℚ)⌉₊ - lc yv = 0 := by omega
          rw [e0]
          simp [List.replicate_succ]
      · have hfilt : ∀ b : Bool, (fun p : ℤ × Bool => p.1 == k) (yv, b) = false := by
          intro b; simp [hyk]
        have hcount : (yv :: rest).count k = rest.count k :=
          List.count_cons_of_ne (Ne.symm hyk) rest
        by_cases hc : (lc yv : ℚ) < r * (cnt yv : ℚ)
        · rw [stratifyGo, if_pos hc]
          rw [List.zip_cons_cons, List.filter_cons_of_neg (by simp [hyk]), ih]
          rw [Function.update_noteq (Ne.symm hyk), hcount]
        · rw [stratifyGo, if_neg hc]
          rw [List.zip_cons_cons, List.filter_cons_of_neg (by simp [hyk]), ih, hcount]

/-- C4 counterexample: with requested ratio 1/2 and a class of 5 samples the
code marks 3 samples labeled (it marks while `count < r·n`, i.e. up to
`⌈r·n⌉`), whereas the claim's `min(n_k, ⌊r·n_k⌋)` is 2. -/
theorem stratify_floor_counterexample :
    (classFlags (1 / 2) [0, 0, 0, 0, 0] 0).count true = 3
      ∧ min (([0, 0, 0, 0, 0] : List ℤ).count 0)
          (Int.toNat ⌊(1 / 2 : ℚ) * ((([0, 0, 0, 0, 0] : List ℤ).count 0 : ℕ) : ℚ)⌋) = 2 := by
  constructor
  · norm_num [classFlags, stratify, stratifyGo, Function.update, List.count_cons]
  · norm_num
    decide

/-- C4 (amended): for a training split with requested ratio `r`, the labeled
samples of class `k` number `min(n_k, ⌈r·n_k⌉)` (ceiling, not floor), and they
are exactly the earliest-indexed samples of the class: the class-`k` flag
sequence is a block of `true`s followed by a block of `false`s. -/
theorem stratify_class_counts (r : ℚ) (ys : List ℤ) (k : ℤ) :
    classFlags r ys k
      = List.replicate (min (ys.count k) ⌈r * (ys.count k : ℚ)⌉₊) true
        ++ List.replicate
            (ys.count k - min (ys.count k) ⌈r * (ys.count k : ℚ)⌉₊) false
      ∧ (classFlags r ys k).count true
        = min (ys.count k) ⌈r * (ys.count k : ℚ)⌉₊ := by
  have h := stratifyGo_classFlags r (fun j => ys.count j) k ys (fun _ => 0)
  have h0 : ⌈r * ((ys.count k : ℕ) : ℚ)⌉₊ - (0 : ℕ) = ⌈r * ((ys.count k : ℕ) : ℚ)⌉₊ := by
    omega
  constructor
  · unfold classFlags stratify
    rw [h, h0]
  · unfold classFlags stratify
    rw [h, h0]
    simp [List.count_replicate]

/-- Per-query neighbor record built by `nearest_neighbors` (lines 16-31):
`indices` are positions WITHIN the labeled-feature subset that the KNN index
was fitted on, `weights` the inverse-distance weights normalized to sum 1.
The cosine-metric KNN query itself is external library code
(sklearn NearestNeighbors); it is abstracted by the query-result functions
`kidx` (per-query neighbor indices) and `kdist` (their distances). -/
structure NbrInfo where
  indices : List ℕ
  weights : List ℚ
  deriving DecidableEq

/-- `nearest_neighbors` (lines 16-31): one record per query sample, with the
weight computation `1/(distance + 1e-6)` row-normalized (lines 28-29). -/
def nearestNeighbors (kidx : ℕ → List ℕ) (kdist : ℕ → List ℚ) (n : ℕ) :
    List NbrInfo :=
  (List.range n).map (fun q =>
    let ws := (kdist q).map (fun d => 1 / (d + 1 / 1000000))
    ⟨kidx q, ws.map (fun w => w / ws.sum)⟩)

/-- Spec-side: the original positions of the labeled samples, in order — the
selection used to build the KNN index (lines 19-23).  Entry `j` is the
original position of labeled-subset element `j`; mapping a neighbor index back
to the original concept array means indexing through this list. -/
def labeledPositions (lchoice : List Bool) : List ℕ :=
  ((lchoice.enum).filter (fun p => p.2)).map (fun p => p.1)

/-- Lines 51-76 of `get_ss_components`: after the counting loop
`for idx in range(len(l_choice))` leaves `idx = len(l_choice) - 1`, the
per-sample loop `for i in range(len(ys))` reads `l_choice[idx]` and
`nbrs[idx]` — the stale `idx`, not the loop variable `i` — and gathers
`cs[i]` directly at the labeled-subset neighbor indices (`l_choice` is a
`defaultdict(bool)`, hence the `false` default). -/
def gatherSSRows (ys : List ℤ) (cs : List (List ℚ)) (lchoice : List Bool)
    (nbrs : List NbrInfo) : List (Bool × List (List ℚ) × List ℚ) :=
  let idx := lchoice.length - 1
  (List.range ys.length).map (fun _i =>
    let l := lchoice.getD idx false
    let info := nbrs.getD idx ⟨[], []⟩
    (l, info.indices.map (fun j => cs.getD j []), info.weights))

/-- `get_ss_components` (lines 12-76): stratified labeled flags for a training
split (all-true otherwise, lines 47-49), then the gather loop; returns the
(labeled flags, neighbor-concept rows, neighbor-weight rows) triple of
lines 74-76. -/
def getSSComponentsFull (ys : List ℤ) (cs : List (List ℚ)) (r : ℚ)
    (training : Bool) (kidx : ℕ → List ℕ) (kdist : ℕ → List ℚ) :
    List Bool × List (List (List ℚ)) × List (List ℚ) :=
  let lchoice := if training then stratify r ys else List.replicate ys.length true
  let rows := gatherSSRows ys cs lchoice (nearestNeighbors kidx kdist ys.length)
  (rows.map (fun t => t.1), rows.map (fun t => t.2.1), rows.map (fun t => t.2.2))

/-- C3 (code bug): evaluated on a 3-sample training split with stratification
flags [true, false, true], the per-sample loop of `get_ss_components` returns
for EVERY sample the labeled flag and the neighbor record of the last sample —
the loop body reads the stale counting variable `idx` instead of the loop
variable `i` (lines 61-62) — so sample 1 is reported labeled although its own
flag is false; and the neighbor concepts are gathered at the raw labeled-subset
index 1 (line 66, `cs[1] = [20]`) instead of being mapped back through the
labeled-subset positions [0, 2] to original sample 2 (`cs[2] = [30]`). -/
theorem get_ss_components_gather_bug :
    stratify (1 / 2) [0, 0, 1] = [true, false, true]
      ∧ (getSSComponentsFull [0, 0, 1] [[10], [20], [30]] (1 / 2) true
          (fun _ => [1]) (fun _ => [1])).1 = [true, true, true]
      ∧ labeledPositions [true, false, true] = [0, 2]
      ∧ (getSSComponentsFull [0, 0, 1] [[10], [20], [30]] (1 / 2) true
          (fun _ => [1]) (fun _ => [1])).2.1 = [[[20]], [[20]], [[20]]]
      ∧ ([[10], [20], [30]] : List (List ℚ)).getD
          ((labeledPositions [true, false, true]).getD 1 0) [] = [30] := by
  have hstrat : stratify (1 / 2) [0, 0, 1] = [true, false, true] := by
    norm_num [stratify, stratifyGo, Function.update, List.count_cons]
  have hstrat2 : stratify (2⁻¹ : ℚ) [0, 0, 1] = [true, false, true] := by
    norm_num [stratify, stratifyGo, Function.update, List.count_cons]
  refine ⟨hstrat, ?_, by decide, ?_, by decide⟩
  · simp [getSSComponentsFull, gatherSSRows, hstrat2, List.range_succ]
  · simp [getSSComponentsFull, gatherSSRows, nearestNeighbors, hstrat2, List.range_succ]

/-! ### inject_uncertainty (src/data/mnist_loader.py, lines 79-162) -/

/-- Random draws consumed by `inject_uncertainty`: `u t` is the `t`-th
standard-uniform variate behind `np.random.uniform` (a draw on `[lo, hi)` is
`lo + u t * (hi - lo)`), and `mixPick t` the `t`-th `np.random.randint`
result.  The two streams are advanced by explicit counters. -/
structure Rng where
  u : ℕ → ℚ
  mixPick : ℕ → ℕ

/-- A tensor buffer: a list of rows of rationals.  An image-batch row holds
one scalar per channel (every pixel operation in `inject_uncertainty` is
pointwise over the grid, so a channel is modelled by one value); a
concept-batch row holds one value per concept column. -/
abbrev Buffer : Type := List (List ℚ)

/-- `b[i, j]` read. -/
def entryAt (b : Buffer) (i j : ℕ) : ℚ := (b.getD i []).getD j 0

/-- `b[i, j] = v` in-place write. -/
def setEntry (b : Buffer) (i j : ℕ) (v : ℚ) : Buffer :=
  b.set i ((b.getD i []).set j v)

/-- `x[c[:, j] == v, j // num_operands, :, :]` (lines 103-115): the channel-`ch`
entries of the rows whose concept column `j` equals `v`.  Boolean-mask
indexing of a torch tensor copies, so the pool is a snapshot taken before the
row loop. -/
def maskPool (x c : Buffer) (j ch : ℕ) (v : ℚ) : List ℚ :=
  ((x.zip c).filter (fun p => (p.2.getD j 0) == v)).map (fun p => p.1.getD ch 0)

/-- Mutable state of the batch loops: the aliased `x_new`/`c_new` buffers and
the two random-stream counters. -/
structure BatchState where
  x : Buffer
  c : Buffer
  ut : ℕ
  rt : ℕ

/-- Body of `for i in range(c_new.shape[0])` (lines 116-153) at concept column
`j` and channel `ch = j // num_operands`: resample the concept entry inside
the uncertainty band, optionally blend the image channel with a pooled
opposite-concept example weighted by the fresh concept value, and optionally
re-threshold the concept entry at 0.5.  `pos`/`neg` are the column-`j` mask
pools of lines 103-115.  (`np.random.randint` raises on an empty pool; that
unreachable error case is modelled by the `getD` default.) -/
def rowStep (w : ℚ) (mixing threshold : Bool) (r : Rng) (j ch : ℕ)
    (pos neg : List ℚ) (st : BatchState) (i : ℕ) : BatchState :=
  let cij := entryAt st.c i j
  let st1 :=
    if cij = 1 then
      let v := (1 - w) + r.u st.ut * (1 - (1 - w))
      let x1 :=
        if mixing then
          setEntry st.x i ch
            (entryAt st.x i ch * v + (1 - v) * neg.getD (r.mixPick st.rt) 0)
        else st.x
      BatchState.mk x1 (setEntry st.c i j v) (st.ut + 1)
        (st.rt + (if mixing then 1 else 0))
    else
      let v := 0 + r.u st.ut * (w - 0)
      let x1 :=
        if mixing then
          setEntry st.x i ch
            (entryAt st.x i ch * (1 - v) + v * pos.getD (r.mixPick st.rt) 0)
        else st.x
      BatchState.mk x1 (setEntry st.c i j v) (st.ut + 1)
        (st.rt + (if mixing then 1 else 0))
  if threshold then
    BatchState.mk st1.x
      (setEntry st1.c i j (if 1 / 2 ≤ entryAt st1.c i j then 1 else 0))
      st1.ut st1.rt
  else st1

/-- One iteration of `for j in range(c_new.shape[-1])` (lines 101-153):
`num_operands = x.shape[1] if x.shape[1] > 2 else 1` (line 102), the mask
pools (computed by the source only under `mixing`, a pure no-op otherwise),
then the row loop over `range(c_new.shape[0])`. -/
def colStep (w : ℚ) (mixing threshold : Bool) (r : Rng)
    (st : BatchState) (j : ℕ) : BatchState :=
  let channels := (st.x.headD []).length
  let numOperands := if channels > 2 then channels else 1
  let ch := j / numOperands
  let pos := maskPool st.x st.c j ch 1
  let neg := maskPool st.x st.c j ch 0
  (List.range st.c.length).foldl (rowStep w mixing threshold r j ch pos neg) st

/-- The batch transformation of lines 98-153 on the collated batch tensors
`x`, `c`: `x_new = x.numpy()` and `c_new = c.numpy()` alias the batch
buffers, `if uncertain_width:` skips the loops entirely when the width is 0,
and the column loop runs over `range(c_new.shape[-1])`. -/
def injectBatch (w : ℚ) (mixing threshold : Bool) (r : Rng)
    (x c : Buffer) (ut rt : ℕ) : BatchState :=
  if w = 0 then BatchState.mk x c ut rt
  else
    (List.range (c.headD []).length).foldl
      (colStep w mixing threshold r) (BatchState.mk x c ut rt)

theorem setEntry_length (b : Buffer) (i j : ℕ) (v : ℚ) :
    (setEntry b i j v).length = b.length := by
  simp [setEntry]

theorem setEntry_row_length (b : Buffer) (i j : ℕ) (v : ℚ) (i' : ℕ) :
    ((setEntry b i j v).getD i' []).length = ((b.getD i' []).length) := by
  by_cases h : i = i'
  · subst h
    by_cases hl : i < b.length
    · simp [setEntry, List.getD_eq_getElem?_getD, List.getElem?_set_self hl,
        List.getElem?_eq_getElem hl]
    · simp [setEntry, List.getD_eq_getElem?_getD, List.getElem?_set, hl,
        List.getElem?_eq_none (not_lt.mp hl)]
  · simp [setEntry, List.getD_eq_getElem?_getD, List.getElem?_set_ne h]

theorem entryAt_setEntry_same (b : Buffer) (i j : ℕ) (v : ℚ)
    (hi : i < b.length) (hj : j < (b.getD i []).length) :
    entryAt (setEntry b i j v) i j = v := by
  rw [List.getD_eq_getElem?_getD] at hj
  simp [entryAt, setEntry, List.getD_eq_getElem?_getD, List.getElem?_set_self hi,
    List.getElem?_set_self hj]

theorem entryAt_setEntry_ne (b : Buffer) (i j : ℕ) (v : ℚ) (i' j' : ℕ)
    (h : i' ≠ i ∨ j' ≠ j) :
    entryAt (setEntry b i j v) i' j' = entryAt b i' j' := by
  rcases h with h | h
  · simp [entryAt, setEntry, List.getD_eq_getElem?_getD,
      List.getElem?_set_ne (Ne.symm h)]
  · by_cases hii : i = i'
    · subst hii
      by_cases hl : i < b.length
      · simp [entryAt, setEntry, List.getD_eq_getElem?_getD,
          List.getElem?_set_self hl, List.getElem?_eq_getElem hl,
          List.getElem?_set_ne (Ne.symm h)]
      · simp [entryAt, setEntry, List.getD_eq_getElem?_getD, List.getElem?_set, hl,
          List.getElem?_eq_none (not_lt.mp hl)]
    · simp [entryAt, setEntry, List.getD_eq_getElem?_getD,
        List.getElem?_set_ne hii]

/-- Spec-side per-entry postcondition of the uncertainty injection: with
re-thresholding the entry is a hard 0/1; without it, an entry that was 1 lands
in `[1-w, 1]` and an entry that was not 1 (in particular 0) lands in `[0, w]`. -/
def injBound (w : ℚ) (threshold : Bool) (old v : ℚ) : Prop :=
  if threshold then v = 0 ∨ v = 1
  else (old = 1 → 1 - w ≤ v ∧ v ≤ 1) ∧ (old ≠ 1 → 0 ≤ v ∧ v ≤ w)

theorem rowStep_c_length (w : ℚ) (mixing threshold : Bool) (r : Rng) (j ch : ℕ)
    (pos neg : List ℚ) (st : BatchState) (i : ℕ) :
    (rowStep w mixing threshold r j ch pos neg st i).c.length = st.c.length := by
  unfold rowStep
  by_cases hthr : threshold <;> by_cases hc : entryAt st.c i j = 1 <;>
    simp [hthr, hc, setEntry_length]

theorem setEntry_row_length' (b : Buffer) (i j : ℕ) (v : ℚ) (i' : ℕ) :
    ((setEntry b i j v)[i']?.getD []).length = ((b[i']?.getD []).length) := by
  have h := setEntry_row_length b i j v i'
  simpa [List.getD_eq_getElem?_getD] using h

theorem rowStep_row_length (w : ℚ) (mixing threshold : Bool) (r : Rng) (j ch : ℕ)
    (pos neg : List ℚ) (st : BatchState) (i : ℕ) (i' : ℕ) :
    ((rowStep w mixing threshold r j ch pos neg st i).c.getD i' []).length
      = ((st.c.getD i' []).length) := by
  unfold rowStep
  by_cases hthr : threshold <;> by_cases hc : entryAt st.c i j = 1 <;>
    simp [hthr, hc, setEntry_row_length, setEntry_row_length']

theorem rowStep_entry_ne (w : ℚ) (mixing threshold : Bool) (r : Rng) (j ch : ℕ)
    (pos neg : List ℚ) (st : BatchState) (i : ℕ) (i' j' : ℕ)
    (h : i' ≠ i ∨ j' ≠ j) :
    entryAt (rowStep w mixing threshold r j ch pos neg st i).c i' j'
      = entryAt st.c i' j' := by
  unfold rowStep
  by_cases hthr : threshold <;> by_cases hc : entryAt st.c i j = 1 <;>
    simp only [hthr, hc, if_true, if_false, Bool.false_eq_true, ite_true, ite_false,
      eq_self_iff_true, not_true, not_false_iff] <;>
    first
      | rw [entryAt_setEntry_ne _ _ _ _ _ _ h, entryAt_setEntry_ne _ _ _ _ _ _ h]
      | rw [entryAt_setEntry_ne _ _ _ _ _ _ h]

theorem rowStep_entry_self (w : ℚ) (mixing threshold : Bool) (r : Rng) (j ch : ℕ)
    (pos neg : List ℚ) (st : BatchState) (i : ℕ)
    (hw0 : 0 ≤ w) (hw1 : w ≤ 1) (hu : ∀ t, 0 ≤ r.u t ∧ r.u t ≤ 1)
    (hi : i < st.c.length) (hj : j < (st.c.getD i []).length) :
    injBound w threshold (entryAt st.c i j)
      (entryAt (rowStep w mixing threshold r j ch pos neg st i).c i j) := by
  have hub0 := (hu st.ut).1
  have hub1 := (hu st.ut).2
  by_cases hthr : threshold
  · obtain ⟨v, vt, hred, hvt⟩ :
        ∃ v vt : ℚ, (rowStep w mixing threshold r j ch pos neg st i).c
            = setEntry (setEntry st.c i j v) i j vt ∧ (vt = 0 ∨ vt = 1) := by
      by_cases hc : entryAt st.c i j = 1
      · refine ⟨(1 - w) + r.u st.ut * (1 - (1 - w)),
          (if (1 : ℚ) / 2 ≤ entryAt
              (setEntry st.c i j ((1 - w) + r.u st.ut * (1 - (1 - w)))) i j
            then 1 else 0), ?_, ?_⟩
        · unfold rowStep
          simp [hthr, hc]
        · by_cases hhalf : (1 : ℚ) / 2 ≤ entryAt
              (setEntry st.c i j ((1 - w) + r.u st.ut * (1 - (1 - w)))) i j
          · rw [if_pos hhalf]; right; rfl
          · rw [if_neg hhalf]; left; rfl
      · refine ⟨0 + r.u st.ut * (w - 0),
          (if (1 : ℚ) / 2 ≤ entryAt
              (setEntry st.c i j (0 + r.u st.ut * (w - 0))) i j
            then 1 else 0), ?_, ?_⟩
        · unfold rowStep
          simp [hthr, hc]
        · by_cases hhalf : (1 : ℚ) / 2 ≤ entryAt
              (setEntry st.c i j (0 + r.u st.ut * (w - 0))) i j
          · rw [if_pos hhalf]; right; rfl
          · rw [if_neg hhalf]; left; rfl
    have hi2 : i < (setEntry st.c i j v).length := by rw [setEntry_length]; exact hi
    have hj2 : j < ((setEntry st.c i j v).getD i []).length := by
      rw [setEntry_row_length]; exact hj
    rw [hred, entryAt_setEntry_same _ _ _ _ hi2 hj2]
    simp [injBound, hthr, hvt]
  · by_cases hc : entryAt st.c i j = 1
    · have hred : (rowStep w mixing threshold r j ch pos neg st i).c
          = setEntry st.c i j ((1 - w) + r.u st.ut * (1 - (1 - w))) := by
        unfold rowStep
        simp [hthr, hc]
      rw [hred, entryAt_setEntry_same _ _ _ _ hi hj]
      simp only [injBound, hthr, if_false, Bool.false_eq_true, ite_false]
      constructor
      · intro _
        constructor
        · nlinarith
        · nlinarith
      · intro hcontra
        exact absurd hc hcontra
    · have hred : (rowStep w mixing threshold r j ch pos neg st i).c
          = setEntry st.c i j (0 + r.u st.ut * (w - 0)) := by
        unfold rowStep
        simp [hthr, hc]
      rw [hred, entryAt_setEntry_same _ _ _ _ hi hj]
      simp only [injBound, hthr, if_false, Bool.false_eq_true, ite_false]
      constructor
      · intro hcontra
        exact absurd hcontra hc
      · intro _
        constructor
        · nlinarith
        · nlinarith

theorem foldl_rowStep_spec (w : ℚ) (mixing threshold : Bool) (r : Rng) (j ch : ℕ)
    (pos neg : List ℚ) (hw0 : 0 ≤ w) (hw1 : w ≤ 1)
    (hu : ∀ t, 0 ≤ r.u t ∧ r.u t ≤ 1) :
    ∀ (m : ℕ) (st : BatchState),
      (((List.range m).foldl (rowStep w mixing threshold r j ch pos neg) st).c.length
          = st.c.length)
      ∧ (∀ i', (((List.range m).foldl (rowStep w mixing threshold r j ch pos neg)
            st).c.getD i' []).length = (st.c.getD i' []).length)
      ∧ (∀ i' j', j' ≠ j →
          entryAt ((List.range m).foldl (rowStep w mixing threshold r j ch pos neg)
              st).c i' j'
            = entryAt st.c i' j')
      ∧ (∀ i', m ≤ i' →
          entryAt ((List.range m).foldl (rowStep w mixing threshold r j ch pos neg)
              st).c i' j
            = entryAt st.c i' j)
      ∧ (∀ i', i' < m → i' < st.c.length → j < (st.c.getD i' []).length →
          injBound w threshold (entryAt st.c i' j)
            (entryAt ((List.range m).foldl (rowStep w mixing threshold r j ch pos neg)
                st).c i' j)) := by
  intro m
  induction m with
  | zero => intro st; simp
  | succ m ih =>
      intro st
      have hfold : (List.range (m + 1)).foldl (rowStep w mixing threshold r j ch pos neg) st
          = rowStep w mixing threshold r j ch pos neg
              ((List.range m).foldl (rowStep w mixing threshold r j ch pos neg) st) m := by
        rw [List.range_succ, List.foldl_append, List.foldl_cons, List.foldl_nil]
      have ihA := ih st
      rw [hfold]
      refine ⟨?_, ?_, ?_, ?_, ?_⟩
      · rw [rowStep_c_length]; exact ihA.1
      · intro i'; rw [rowStep_row_length]; exact ihA.2.1 i'
      · intro i' j' hne
        rw [rowStep_entry_ne _ _ _ _ _ _ _ _ _ _ _ _ (Or.inr hne)]
        exact ihA.2.2.1 i' j' hne
      · intro i' hge
        rw [rowStep_entry_ne _ _ _ _ _ _ _ _ _ _ _ _ (Or.inl (by omega))]
        exact ihA.2.2.2.1 i' (by omega)
      · intro i' hlt hilen hjlen
        by_cases heq : i' = m
        · subst heq
          have h1 := rowStep_entry_self w mixing threshold r j ch pos neg
            ((List.range i').foldl (rowStep w mixing threshold r j ch pos neg) st) i'
            hw0 hw1 hu (by rw [ihA.1]; exact hilen) (by rw [ihA.2.1 i']; exact hjlen)
          rw [ihA.2.2.2.1 i' (le_refl i')] at h1
          exact h1
        · rw [rowStep_entry_ne _ _ _ _ _ _ _ _ _ _ _ _ (Or.inl heq)]
          exact ihA.2.2.2.2 i' (by omega) hilen hjlen

theorem colStep_spec (w : ℚ) (mixing threshold : Bool) (r : Rng)
    (hw0 : 0 ≤ w) (hw1 : w ≤ 1) (hu : ∀ t, 0 ≤ r.u t ∧ r.u t ≤ 1)
    (st : BatchState) (j : ℕ) :
    ((colStep w mixing threshold r st j).c.length = st.c.length)
    ∧ (∀ i', ((colStep w mixing threshold r st j).c.getD i' []).length
        = (st.c.getD i' []).length)
    ∧ (∀ i' j', j' ≠ j → entryAt (colStep w mixing threshold r st j).c i' j'
        = entryAt st.c i' j')
    ∧ (∀ i', i' < st.c.length → j < (st.c.getD i' []).length →
        injBound w threshold (entryAt st.c i' j)
          (entryAt (colStep w mixing threshold r st j).c i' j)) := by
  have h := foldl_rowStep_spec w mixing threshold r j
    (j / (if (st.x.headD []).length > 2 then (st.x.headD []).length else 1))
    (maskPool st.x st.c j
      (j / (if (st.x.headD []).length > 2 then (st.x.headD []).length else 1)) 1)
    (maskPool st.x st.c j
      (j / (if (st.x.headD []).length > 2 then (st.x.headD []).length else 1)) 0)
    hw0 hw1 hu st.c.length st
  exact ⟨h.1, h.2.1, h.2.2.1, fun i' h1 h2 => h.2.2.2.2 i' h1 h1 h2⟩

theorem foldl_colStep_spec (w : ℚ) (mixing threshold : Bool) (r : Rng)
    (hw0 : 0 ≤ w) (hw1 : w ≤ 1) (hu : ∀ t, 0 ≤ r.u t ∧ r.u t ≤ 1) :
    ∀ (m : ℕ) (st : BatchState),
      (((List.range m).foldl (colStep w mixing threshold r) st).c.length = st.c.length)
      ∧ (∀ i', (((List.range m).foldl (colStep w mixing threshold r) st).c.getD
          i' []).length = (st.c.getD i' []).length)
      ∧ (∀ i' j', m ≤ j' →
          entryAt ((List.range m).foldl (colStep w mixing threshold r) st).c i' j'
            = entryAt st.c i' j')
      ∧ (∀ i' j', j' < m → i' < st.c.length → j' < (st.c.getD i' []).length →
          injBound w threshold (entryAt st.c i' j')
            (entryAt ((List.range m).foldl (colStep w mixing threshold r) st).c i' j')) := by
  intro m
  induction m with
  | zero => intro st; simp
  | succ m ih =>
      intro st
      have hfold : (List.range (m + 1)).foldl (colStep w mixing threshold r) st
          = colStep w mixing threshold r
              ((List.range m).foldl (colStep w mixing threshold r) st) m := by
        rw [List.range_succ, List.foldl_append, List.foldl_cons, List.foldl_nil]
      have ihA := ih st
      have hcol := colStep_spec w mixing threshold r hw0 hw1 hu
        ((List.range m).foldl (colStep w mixing threshold r) st) m
      rw [hfold]
      refine ⟨?_, ?_, ?_, ?_⟩
      · rw [hcol.1]; exact ihA.1
      · intro i'; rw [hcol.2.1 i']; exact ihA.2.1 i'
      · intro i' j' hge
        rw [hcol.2.2.1 i' j' (by omega)]
        exact ihA.2.2.1 i' j' (by omega)
      · intro i' j' hlt hilen hjlen
        by_cases heq : j' = m
        · subst heq
          have h1 := hcol.2.2.2 i' (by rw [ihA.1]; exact hilen)
            (by rw [ihA.2.1 i']; exact hjlen)
          rw [ihA.2.2.1 i' j' (le_refl j')] at h1
          exact h1
        · rw [hcol.2.2.1 i' j' heq]
          exact ihA.2.2.2 i' j' (by omega) hilen hjlen

/-- C6: after `inject_uncertainty` with width `w ∈ (0, 1]` and `threshold`
disabled, every concept entry that was 1 lies in `[1-w, 1]` and every entry
that was 0 lies in `[0, w]` (lines 116-151); with `threshold` enabled every
processed entry is collapsed to exactly 0 or 1 at the 0.5 boundary
(lines 152-153).  `hL` states the rectangular-array fact that row `i` has the
batch-wide column count `c_new.shape[-1]`. -/
theorem inject_uncertainty_bounds (w : ℚ) (mixing threshold : Bool) (r : Rng)
    (x c : Buffer) (ut rt : ℕ)
    (hw0 : 0 < w) (hw1 : w ≤ 1) (hu : ∀ t, 0 ≤ r.u t ∧ r.u t ≤ 1)
    (i j : ℕ) (hi : i < c.length) (hj : j < (c.getD i []).length)
    (hL : (c.getD i []).length = (c.headD []).length) :
    (threshold = false →
        (entryAt c i j = 1 →
          1 - w ≤ entryAt (injectBatch w mixing threshold r x c ut rt).c i j
            ∧ entryAt (injectBatch w mixing threshold r x c ut rt).c i j ≤ 1)
        ∧ (entryAt c i j = 0 →
          0 ≤ entryAt (injectBatch w mixing threshold r x c ut rt).c i j
            ∧ entryAt (injectBatch w mixing threshold r x c ut rt).c i j ≤ w))
    ∧ (threshold = true →
        entryAt (injectBatch w mixing threshold r x c ut rt).c i j = 0
          ∨ entryAt (injectBatch w mixing threshold r x c ut rt).c i j = 1) := by
  have hwne : ¬ w = 0 := by exact ne_of_gt hw0
  have hred : injectBatch w mixing threshold r x c ut rt
      = (List.range (c.headD []).length).foldl (colStep w mixing threshold r)
          (BatchState.mk x c ut rt) := by
    unfold injectBatch
    rw [if_neg hwne]
  have h := (foldl_colStep_spec w mixing threshold r (le_of_lt hw0) hw1 hu
    (c.headD []).length (BatchState.mk x c ut rt)).2.2.2 i j
    (by rw [← hL]; exact hj) hi hj
  rw [hred]
  constructor
  · intro hthr
    subst hthr
    simp only [injBound, if_false, Bool.false_eq_true, ite_false] at h
    constructor
    · intro h1
      exact h.1 h1
    · intro h0
      refine h.2 ?_
      rw [h0]
      norm_num
  · intro hthr
    subst hthr
    simpa [injBound] using h

theorem inject_uncertainty_bounds_witness :
    (0 : ℚ) < 1 / 2
      ∧ 1 - (1 / 2 : ℚ)
          ≤ entryAt (injectBatch (1 / 2) false false
              (Rng.mk (fun _ => 1 / 2) (fun _ => 0)) [[0]] [[1]] 0 0).c 0 0
      ∧ entryAt (injectBatch (1 / 2) false false
          (Rng.mk (fun _ => 1 / 2) (fun _ => 0)) [[0]] [[1]] 0 0).c 0 0 ≤ 1 := by
  have h := inject_uncertainty_bounds (1 / 2) false false
    (Rng.mk (fun _ => 1 / 2) (fun _ => 0)) [[0]] [[1]] 0 0
    (by norm_num) (by norm_num) (fun t => by norm_num) 0 0
    (by norm_num) (by norm_num) (by norm_num)
  have h2 := (h.1 rfl).1 rfl
  exact ⟨by norm_num, h2.1, h2.2⟩

/-- A heap of tensor buffers; a buffer id is an index into the list.  Fresh
tensors (DataLoader default collation stacks fetched rows into new storage;
`torch.FloatTensor(...)` / `torch.cat` / `np.concatenate` copy) are allocated
at the end, while CPU `Tensor.numpy()` shares storage, so the numpy writes of
`inject_uncertainty` land in the buffer they alias. -/
abbrev Heap : Type := List Buffer

def heapGet (h : Heap) (b : ℕ) : Buffer := h.getD b []

def heapSet (h : Heap) (b : ℕ) (v : Buffer) : Heap := h.set b v

def heapAlloc (h : Heap) (v : Buffer) : ℕ × Heap := (h.length, h ++ [v])

/-- A `TensorDataset(x, y, c)` held by an input loader: three buffer ids. -/
structure TDataset where
  xb : ℕ
  yb : ℕ
  cb : ℕ

/-- Row-index batches of a DataLoader pass: `range(n)` chunked at
`batch_size` (torch rejects a non-positive batch size, hence the 0 guard). -/
def chunksGo (bs : ℕ) : ℕ → List ℕ → List (List ℕ)
  | 0, _ => []
  | _, [] => []
  | fuel + 1, a :: l => (a :: l).take bs :: chunksGo bs fuel ((a :: l).drop bs)

def chunks (bs : ℕ) (l : List ℕ) : List (List ℕ) :=
  if bs = 0 then [] else chunksGo bs l.length l

/-- Accumulator of the `for x, y, c in ds` loop (lines 92-156): the heap, the
random counters, and the accumulated per-batch arrays `xs`/`ys`/`cs`. -/
structure BatchAcc where
  heap : Heap
  ut : ℕ
  rt : ℕ
  xs : List Buffer
  ys : List Buffer
  cs : List Buffer

/-- One iteration of `for x, y, c in ds` (lines 96-156): default collation
stacks the fetched dataset rows into FRESH batch tensors (three allocations);
`x.numpy()`/`c.numpy()` alias the batch buffers, so the in-place batch
transformation `injectBatch` writes back into them; the final contents are
the arrays appended to `xs`/`cs` (lines 155-156, read after all writes; `y`
is appended untouched at line 97). -/
def injectStepBatch (w : ℚ) (mixing threshold : Bool) (r : Rng) (ds : TDataset)
    (acc : BatchAcc) (idxs : List ℕ) : BatchAcc :=
  let xRows := idxs.map (fun i => (heapGet acc.heap ds.xb).getD i [])
  let yRows := idxs.map (fun i => (heapGet acc.heap ds.yb).getD i [])
  let cRows := idxs.map (fun i => (heapGet acc.heap ds.cb).getD i [])
  let a1 := heapAlloc acc.heap xRows
  let a2 := heapAlloc a1.2 yRows
  let a3 := heapAlloc a2.2 cRows
  let res := injectBatch w mixing threshold r (heapGet a3.2 a1.1) (heapGet a3.2 a3.1)
    acc.ut acc.rt
  let h4 := heapSet (heapSet a3.2 a1.1 res.x) a3.1 res.c
  BatchAcc.mk h4 res.ut res.rt
    (acc.xs ++ [heapGet h4 a1.1]) (acc.ys ++ [heapGet h4 a2.1])
    (acc.cs ++ [heapGet h4 a3.1])

/-- `inject_uncertainty` applied to one input loader (lines 91-161): iterate
the loader's batches, then build the returned loader's `TensorDataset` from
the concatenated arrays (lines 157-161), as three fresh allocations. -/
def injectOne (w : ℚ) (mixing threshold : Bool) (r : Rng) (bs : ℕ) (ds : TDataset)
    (heap : Heap) (ut rt : ℕ) : TDataset × Heap × ℕ × ℕ :=
  let n := (heapGet heap ds.xb).length
  let acc := (chunks bs (List.range n)).foldl
    (injectStepBatch w mixing threshold r ds) (BatchAcc.mk heap ut rt [] [] [])
  let a1 := heapAlloc acc.heap acc.xs.flatten
  let a2 := heapAlloc a1.2 acc.ys.flatten
  let a3 := heapAlloc a2.2 acc.cs.flatten
  (TDataset.mk a1.1 a2.1 a3.1, a3.2, acc.ut, acc.rt)

/-- `inject_uncertainty(*datasets, ...)` (lines 79-162): `results = []`, each
input loader processed in turn against the shared heap and random streams. -/
def injectUncertainty (w : ℚ) (mixing threshold : Bool) (r : Rng) (bs : ℕ)
    (dss : List TDataset) (heap : Heap) : List TDataset × Heap :=
  let st := dss.foldl
    (fun st ds =>
      let res := injectOne w mixing threshold r bs ds st.2.1 st.2.2.1 st.2.2.2
      (st.1 ++ [res.1], res.2.1, res.2.2.1, res.2.2.2))
    (([] : List TDataset), heap, 0, 0)
  (st.1, st.2.1)

theorem take_set_of_le (l : Heap) (b : ℕ) (v : Buffer) (m : ℕ) (h : m ≤ b) :
    (l.set b v).take m = l.take m := by
  apply List.ext_getElem?
  intro n
  rw [List.getElem?_take, List.getElem?_take]
  by_cases hn : n < m
  · rw [if_pos hn, if_pos hn, List.getElem?_set_ne (by omega)]
  · rw [if_neg hn, if_neg hn]

theorem injectStepBatch_frame (w : ℚ) (mixing threshold : Bool) (r : Rng)
    (ds : TDataset) (acc : BatchAcc) (idxs : List ℕ) (m : ℕ)
    (hm : m ≤ acc.heap.length) :
    (injectStepBatch w mixing threshold r ds acc idxs).heap.take m = acc.heap.take m
    ∧ acc.heap.length ≤ (injectStepBatch w mixing threshold r ds acc idxs).heap.length := by
  unfold injectStepBatch heapAlloc heapSet
  constructor
  · rw [take_set_of_le _ _ _ _ (by simp; omega), take_set_of_le _ _ _ _ (by simp; omega)]
    rw [List.append_assoc, List.append_assoc]
    rw [List.take_append_of_le_length hm]
  · simp

theorem foldl_injectStepBatch_frame (w : ℚ) (mixing threshold : Bool) (r : Rng)
    (ds : TDataset) (m : ℕ) :
    ∀ (batches : List (List ℕ)) (acc : BatchAcc), m ≤ acc.heap.length →
      (batches.foldl (injectStepBatch w mixing threshold r ds) acc).heap.take m
          = acc.heap.take m
      ∧ acc.heap.length
          ≤ (batches.foldl (injectStepBatch w mixing threshold r ds) acc).heap.length := by
  intro batches
  induction batches with
  | nil => intro acc hm; exact ⟨rfl, le_refl _⟩
  | cons b rest ih =>
      intro acc hm
      have hstep := injectStepBatch_frame w mixing threshold r ds acc b m hm
      have hrest := ih (injectStepBatch w mixing threshold r ds acc b)
        (le_trans hm hstep.2)
      rw [List.foldl_cons]
      exact ⟨hrest.1.trans hstep.1, le_trans hstep.2 hrest.2⟩

theorem injectOne_frame (w : ℚ) (mixing threshold : Bool) (r : Rng) (bs : ℕ)
    (ds : TDataset) (heap : Heap) (ut rt : ℕ) (m : ℕ) (hm : m ≤ heap.length) :
    (injectOne w mixing threshold r bs ds heap ut rt).2.1.take m = heap.take m
    ∧ heap.length ≤ (injectOne w mixing threshold r bs ds heap ut rt).2.1.length := by
  unfold injectOne heapAlloc
  dsimp only
  have hfold := foldl_injectStepBatch_frame w mixing threshold r ds m
    (chunks bs (List.range (heapGet heap ds.xb).length))
    (BatchAcc.mk heap ut rt [] [] []) hm
  dsimp only at hfold
  have hlen : m ≤ ((chunks bs (List.range (heapGet heap ds.xb).length)).foldl
      (injectStepBatch w mixing threshold r ds)
      (BatchAcc.mk heap ut rt [] [] [])).heap.length := le_trans hm hfold.2
  constructor
  · rw [List.append_assoc, List.append_assoc]
    rw [List.take_append_of_le_length hlen]
    exact hfold.1
  · simp only [List.length_append]
    omega

/-- C5: `inject_uncertainty` does not mutate its input datasets — after the
call, every buffer that existed before (in particular each input loader's
image, label and concept tensors) holds exactly its prior contents; the
transformed values live only in freshly allocated buffers referenced by the
returned datasets.  This rests on DataLoader default collation copying rows
into fresh batch tensors: the `x.numpy()`/`c.numpy()` aliases therefore write
into batch buffers, never into the dataset's own tensors. -/
theorem inject_uncertainty_no_mutation (w : ℚ) (mixing threshold : Bool) (r : Rng)
    (bs : ℕ) (dss : List TDataset) (heap : Heap) :
    (injectUncertainty w mixing threshold r bs dss heap).2.take heap.length = heap
    ∧ ∀ ds ∈ dss, ds.xb < heap.length → ds.cb < heap.length →
        heapGet (injectUncertainty w mixing threshold r bs dss heap).2 ds.xb
            = heapGet heap ds.xb
        ∧ heapGet (injectUncertainty w mixing threshold r bs dss heap).2 ds.cb
            = heapGet heap ds.cb := by
  have key : ∀ (l : List TDataset) (st : List TDataset × Heap × ℕ × ℕ),
      heap.length ≤ st.2.1.length →
      (l.foldl (fun st ds =>
          let res := injectOne w mixing threshold r bs ds st.2.1 st.2.2.1 st.2.2.2
          (st.1 ++ [res.1], res.2.1, res.2.2.1, res.2.2.2)) st).2.1.take heap.length
          = st.2.1.take heap.length
      ∧ heap.length ≤ (l.foldl (fun st ds =>
          let res := injectOne w mixing threshold r bs ds st.2.1 st.2.2.1 st.2.2.2
          (st.1 ++ [res.1], res.2.1, res.2.2.1, res.2.2.2)) st).2.1.length := by
    intro l
    induction l with
    | nil => intro st hm; exact ⟨rfl, hm⟩
    | cons d rest ih =>
        intro st hm
        have hone := injectOne_frame w mixing threshold r bs d st.2.1 st.2.2.1 st.2.2.2
          heap.length hm
        have hrest := ih (st.1 ++ [(injectOne w mixing threshold r bs d st.2.1
          st.2.2.1 st.2.2.2).1],
          (injectOne w mixing threshold r bs d st.2.1 st.2.2.1 st.2.2.2).2.1,
          (injectOne w mixing threshold r bs d st.2.1 st.2.2.1 st.2.2.2).2.2.1,
          (injectOne w mixing threshold r bs d st.2.1 st.2.2.1 st.2.2.2).2.2.2)
          (le_trans hm hone.2)
        rw [List.foldl_cons]
        exact ⟨hrest.1.trans hone.1, hrest.2⟩
  have hmain := key dss ([], heap, 0, 0) (le_refl _)
  have htake : (injectUncertainty w mixing threshold r bs dss heap).2.take heap.length
      = heap := by
    unfold injectUncertainty
    exact hmain.1.trans (List.take_length heap)
  refine ⟨htake, ?_⟩
  intro ds _ hx hc
  constructor
  · unfold heapGet
    rw [List.getD_eq_getElem?_getD, List.getD_eq_getElem?_getD]
    have h3 := congrArg (fun l => l[ds.xb]?) htake
    simp only [List.getElem?_take] at h3
    rw [if_pos hx] at h3
    rw [h3]
  · unfold heapGet
    rw [List.getD_eq_getElem?_getD, List.getD_eq_getElem?_getD]
    have h3 := congrArg (fun l => l[ds.cb]?) htake
    simp only [List.getElem?_take] at h3
    rw [if_pos hc] at h3
    rw [h3]

theorem inject_uncertainty_no_mutation_witness :
    heapGet (injectUncertainty (1 / 2) false false
        (Rng.mk (fun _ => 1 / 2) (fun _ => 0)) 2 [TDataset.mk 0 1 2]
        [[[0]], [[5]], [[1]]]).2 0
      = [[0]]
    ∧ heapGet (injectUncertainty (1 / 2) false false
        (Rng.mk (fun _ => 1 / 2) (fun _ => 0)) 2 [TDataset.mk 0 1 2]
        [[[0]], [[5]], [[1]]]).2 2
      = [[1]] := by
  have h := (inject_uncertainty_no_mutation (1 / 2) false false
    (Rng.mk (fun _ => 1 / 2) (fun _ => 0)) 2 [TDataset.mk 0 1 2]
    [[[0]], [[5]], [[1]]]).2 (TDataset.mk 0 1 2) (by simp) (by norm_num) (by norm_num)
  exact ⟨h.1.trans rfl, h.2.trans rfl⟩

/-! ### generate_data (src/data/mnist_loader.py, lines 509-653) -/

/-- Widths and the operand-indexed concept-group map of the
non-even-concepts branch (lines 530-537): operand `o` contributes the block
`range(num_concepts, num_concepts + w_o)` of consecutive concept columns. -/
def buildGroupMapGo (acc : ℕ) : List (List ℤ) → List (List ℕ)
  | [] => []
  | digits :: rest =>
      List.range' acc (if digits.length > 2 then digits.length else 1)
        :: buildGroupMapGo (acc + (if digits.length > 2 then digits.length else 1)) rest

def buildGroupMap (sds : List (List ℤ)) : List (List ℕ) := buildGroupMapGo 0 sds

/-- `num_concepts` accumulated by the same loop. -/
def totalWidth (sds : List (List ℤ)) : ℕ :=
  (sds.map (fun digits => if digits.length > 2 then digits.length else 1)).sum

/-- Even-concepts concept-group map `{i: [i]}` (line 528). -/
def evenGroupMap (numOperands : ℕ) : List (List ℕ) :=
  (List.range numOperands).map (fun i => [i])

/-- The metadata computation of `generate_data` (lines 516-541) together with
the read of `n_tasks` when the return tuple of line 653 is built: the
even-concepts branch never assigns `n_tasks` (modelled as `none`) unless a
label transform forces it to 1 (lines 539-540); evaluating the unassigned name
at line 653 raises Python's unbound-local error. -/
def generateDataMeta (sel : SelDigits) (numOperands : ℕ)
    (evenConcepts evenLabels : Bool) (thresholdLabels : Option ℤ) :
    Except String (ℕ × ℤ × List (List ℕ)) :=
  match normalizeSelectedDigits sel numOperands with
  | Except.error e => Except.error e
  | Except.ok sds =>
      let meta :=
        if evenConcepts then
          (numOperands, evenGroupMap numOperands, (none : Option ℤ))
        else
          (totalWidth sds, buildGroupMap sds, some (1 + (sds.map listMax).sum))
      match (if evenLabels || thresholdLabels.isSome then some (1 : ℤ) else meta.2.2) with
      | none => Except.error ("UnboundLocalError: n_tasks")
      | some t => Except.ok (meta.1, t, meta.2.1)

/-- C10: for every configuration with `even_concepts` true, `even_labels`
false and `threshold_labels` unset (and a well-formed operand spec, so that
the earlier length check passes), `generate_data` fails with an unbound-name
error when building its return tuple: `n_tasks` is assigned only in the
non-even-concepts branch (lines 530-537) or by a label transform
(lines 539-540), yet it is read at line 653. -/
theorem generate_data_unbound_n_tasks (sel : SelDigits) (numOperands : ℕ)
    (sds : List (List ℤ))
    (hsds : normalizeSelectedDigits sel numOperands = Except.ok sds) :
    generateDataMeta sel numOperands true false none
      = Except.error ("UnboundLocalError: n_tasks") := by
  unfold generateDataMeta
  rw [hsds]
  rfl

theorem generate_data_unbound_n_tasks_witness :
    normalizeSelectedDigits (SelDigits.flat [0, 1]) 2 = Except.ok [[0, 1], [0, 1]]
      ∧ generateDataMeta (SelDigits.flat [0, 1]) 2 true false none
        = Except.error ("UnboundLocalError: n_tasks") :=
  ⟨rfl, generate_data_unbound_n_tasks (SelDigits.flat [0, 1]) 2 [[0, 1], [0, 1]] rfl⟩

/-- The on-disk selection cache: the contents of the file keyed by
`(sampling_percent, num_operands)`, or `none` when the file does not exist.
Group mode and concept mode use distinct file-name patterns, hence distinct
stores of this shape. -/
def CacheStore : Type := ℚ → ℕ → Option (List ℕ)

/-- The selection block of `generate_data` (concept mode, lines 567-579;
group mode, lines 548-560, with `total` the group count): compute
`new_n = int(np.ceil(total * p))`; if `rerun` is unset and the cache file
exists, load it, otherwise select `sorted(np.random.permutation(total)[:new_n])`
(`perm` is the permutation drawn) and persist it under the key. -/
def subsampleSelect (total : ℕ) (p : ℚ) (numOperands : ℕ) (store : CacheStore)
    (rerun : Bool) (perm : List ℕ) : List ℕ × CacheStore :=
  let newN := (⌈(total : ℚ) * p⌉).toNat
  match (if rerun then none else store p numOperands) with
  | some sel => (sel, store)
  | none =>
      let sel := (perm.take newN).mergeSort (fun a b => decide (a ≤ b))
      (sel, fun q m => if q = p ∧ m = numOperands then some sel else store q m)

/-- C7: the subsampler selects `⌈p·total⌉` indices and persists them under the
key `(sampling_percent, num_operands)`; a second invocation with the same key
and `rerun=False` returns the identical selection because it loads the
persisted entry; `rerun=True` recomputes a fresh permutation-based selection
and persists it. -/
theorem subsample_select_cached (total : ℕ) (p : ℚ) (numOperands : ℕ)
    (store : CacheStore) (perm perm2 : List ℕ)
    (hstore : store p numOperands = none)
    (hperm : perm.Perm (List.range total)) (hp0 : 0 ≤ p) (hp1 : p ≤ 1) :
    (subsampleSelect total p numOperands store false perm).1.length
        = (⌈(total : ℚ) * p⌉).toNat
    ∧ (subsampleSelect total p numOperands store false perm).2 p numOperands
        = some (subsampleSelect total p numOperands store false perm).1
    ∧ (subsampleSelect total p numOperands
        (subsampleSelect total p numOperands store false perm).2 false perm2).1
        = (subsampleSelect total p numOperands store false perm).1
    ∧ (∀ (st : CacheStore) (perm3 : List ℕ),
        (subsampleSelect total p numOperands st true perm3).1
            = (perm3.take (⌈(total : ℚ) * p⌉).toNat).mergeSort (fun a b => decide (a ≤ b))
        ∧ (subsampleSelect total p numOperands st true perm3).2 p numOperands
            = some ((perm3.take (⌈(total : ℚ) * p⌉).toNat).mergeSort
                (fun a b => decide (a ≤ b)))) := by
  have hlenp : perm.length = total := by
    rw [hperm.length_eq, List.length_range]
  have hle : (⌈(total : ℚ) * p⌉).toNat ≤ total := by
    have h1 : (total : ℚ) * p ≤ (total : ℚ) := by nlinarith
    have h2 : ⌈(total : ℚ) * p⌉ ≤ ⌈(total : ℚ)⌉ := Int.ceil_le_ceil h1
    have h3 : ⌈(total : ℚ)⌉ = (total : ℤ) := by
      exact_mod_cast Int.ceil_intCast (total : ℤ)
    omega
  have hfirst : subsampleSelect total p numOperands store false perm
      = ((perm.take (⌈(total : ℚ) * p⌉).toNat).mergeSort (fun a b => decide (a ≤ b)),
        fun q m => if q = p ∧ m = numOperands
          then some ((perm.take (⌈(total : ℚ) * p⌉).toNat).mergeSort
            (fun a b => decide (a ≤ b)))
          else store q m) := by
    unfold subsampleSelect
    rw [if_neg (by simp)]
    rw [hstore]
  refine ⟨?_, ?_, ?_, ?_⟩
  · rw [hfirst]
    simp only [List.length_mergeSort, List.length_take]
    omega
  · rw [hfirst]
    simp
  · rw [hfirst]
    unfold subsampleSelect
    simp
  · intro st perm3
    constructor
    · unfold subsampleSelect
      rw [if_pos rfl]
    · unfold subsampleSelect
      rw [if_pos rfl]
      simp

theorem subsample_select_cached_witness :
    (fun (_ : ℚ) (_ : ℕ) => (none : Option (List ℕ))) (1 / 2) 4 = none
      ∧ (subsampleSelect 2 (1 / 2) 4 (fun _ _ => none) false [1, 0]).1.length
          = (⌈(2 : ℚ) * (1 / 2)⌉).toNat
      ∧ (subsampleSelect 2 (1 / 2) 4
          (subsampleSelect 2 (1 / 2) 4 (fun _ _ => none) false [1, 0]).2 false [0, 1]).1
          = (subsampleSelect 2 (1 / 2) 4 (fun _ _ => none) false [1, 0]).1 := by
  have h := subsample_select_cached 2 (1 / 2) 4 (fun _ _ => none) [1, 0] [0, 1]
    rfl (by decide) (by norm_num) (by norm_num)
  exact ⟨rfl, h.1, h.2.2.1⟩

/-- Body of the scan over `concept_group_map.items()` inside the rebuild loop
(lines 586-596) for one selected concept `sc`: a group containing `sc` whose
key is not yet present is appended, keeping exactly its selected members
remapped through `remap = dict((y, x) for (x, y) in enumerate(selected))` —
for the duplicate-free selections produced here, the index within the
selection list. -/
def addScan (gmap : List (List ℕ)) (selected : List ℕ) (sc : ℕ)
    (acc2 : List (ℕ × List ℕ)) (p : ℕ × List ℕ) : List (ℕ × List ℕ) :=
  if sc ∈ p.2 then
    if acc2.any (fun q => q.1 == p.1) then acc2
    else acc2 ++ [(p.1,
      (p.2.filter (fun oc => decide (oc ∈ selected))).map
        (fun oc => selected.indexOf oc))]
  else acc2

/-- The inner loop `for concept_group_name, group_concepts in
concept_group_map.items()` (lines 586-596). -/
def addSelectedConcept (gmap : List (List ℕ)) (selected : List ℕ)
    (acc : List (ℕ × List ℕ)) (sc : ℕ) : List (ℕ × List ℕ) :=
  (gmap.enum).foldl (addScan gmap selected sc) acc

/-- `new_concept_group` (lines 582-596): the outer loop
`for selected_concept in selected_concepts`, starting from the empty dict. -/
def rebuildGroupMap (gmap : List (List ℕ)) (selected : List ℕ) :
    List (ℕ × List ℕ) :=
  selected.foldl (addSelectedConcept gmap selected) []

/-- Group-mode selected concepts (lines 561-566): the members of the selected
groups, `sorted(set(...))` = deduplicated and sorted ascending. -/
def groupModeSelected (gmap : List (List ℕ)) (selGroups : List ℕ) : List ℕ :=
  (((selGroups.map (fun gi => gmap.getD gi [])).flatten).dedup).mergeSort
    (fun a b => decide (a ≤ b))

/-- Invariant of the rebuild loop: every accumulated entry is a valid group
key carrying exactly that group's selected members remapped, and no key
repeats. -/
def RebuildInv (gmap : List (List ℕ)) (S : List ℕ)
    (acc : List (ℕ × List ℕ)) : Prop :=
  (∀ e ∈ acc, e.1 < gmap.length
      ∧ e.2 = ((gmap.getD e.1 []).filter (fun oc => decide (oc ∈ S))).map
          (fun oc => S.indexOf oc))
  ∧ (acc.map Prod.fst).Nodup

theorem foldl_addScan_spec (gmap : List (List ℕ)) (S : List ℕ) (sc : ℕ) :
    ∀ (ps : List (ℕ × List ℕ)) (acc : List (ℕ × List ℕ)),
      (∀ p ∈ ps, p.1 < gmap.length ∧ gmap.getD p.1 [] = p.2) →
      RebuildInv gmap S acc →
      RebuildInv gmap S (ps.foldl (addScan gmap S sc) acc)
      ∧ (∀ e ∈ acc, e ∈ ps.foldl (addScan gmap S sc) acc)
      ∧ ((∃ p ∈ ps, sc ∈ p.2) ∨ (∃ e ∈ acc, sc ∈ gmap.getD e.1 []) →
          ∃ e ∈ ps.foldl (addScan gmap S sc) acc, sc ∈ gmap.getD e.1 []) := by
  intro ps
  induction ps with
  | nil =>
      intro acc _ hinv
      refine ⟨hinv, fun e he => he, ?_⟩
      rintro (⟨p, hp, _⟩ | h)
      · exact absurd hp (List.not_mem_nil p)
      · exact h
  | cons p ps' ih =>
      intro acc hps hinv
      have hp := hps p (List.mem_cons_self p ps')
      have hps' : ∀ q ∈ ps', q.1 < gmap.length ∧ gmap.getD q.1 [] = q.2 :=
        fun q hq => hps q (List.mem_cons_of_mem p hq)
      have hstep : RebuildInv gmap S (addScan gmap S sc acc p)
          ∧ (∀ e ∈ acc, e ∈ addScan gmap S sc acc p)
          ∧ (sc ∈ p.2 → ∃ e ∈ addScan gmap S sc acc p, sc ∈ gmap.getD e.1 []) := by
        unfold addScan
        by_cases hmem : sc ∈ p.2
        · rw [if_pos hmem]
          by_cases hany : acc.any (fun q => q.1 == p.1)
          · rw [if_pos hany]
            refine ⟨hinv, fun e he => he, fun _ => ?_⟩
            obtain ⟨q, hq, hq1⟩ := List.any_eq_true.mp hany
            refine ⟨q, hq, ?_⟩
            have : q.1 = p.1 := by simpa using hq1
            rw [this, hp.2]
            exact hmem
          · rw [if_neg hany]
            refine ⟨⟨?_, ?_⟩, ?_, ?_⟩
            · intro e he
              rcases List.mem_append.mp he with he | he
              · exact hinv.1 e he
              · have : e = (p.1,
                    (p.2.filter (fun oc => decide (oc ∈ S))).map
                      (fun oc => S.indexOf oc)) := by simpa using he
                subst this
                exact ⟨hp.1, by rw [hp.2]⟩
            · rw [List.map_append]
              rw [List.nodup_append]
              refine ⟨hinv.2, by simp, ?_⟩
              intro a ha hb
              have hb1 : a = p.1 := by simpa using hb
              subst hb1
              obtain ⟨q, hq, hq1⟩ := List.mem_map.mp ha
              apply hany
              rw [List.any_eq_true]
              exact ⟨q, hq, by simp [hq1]⟩
            · intro e he
              exact List.mem_append.mpr (Or.inl he)
            · intro _
              refine ⟨(p.1,
                  (p.2.filter (fun oc => decide (oc ∈ S))).map
                    (fun oc => S.indexOf oc)), by simp, ?_⟩
              rw [hp.2]
              exact hmem
        · rw [if_neg hmem]
          exact ⟨hinv, fun e he => he, fun h => absurd h hmem⟩
      rw [List.foldl_cons]
      have hrec := ih (addScan gmap S sc acc p) hps' hstep.1
      refine ⟨hrec.1, ?_, ?_⟩
      · intro e he
        exact hrec.2.1 e (hstep.2.1 e he)
      · rintro (⟨q, hq, hq2⟩ | ⟨e, he, he2⟩)
        · rcases List.mem_cons.mp hq with rfl | hq'
          · obtain ⟨e, he, he2⟩ := hstep.2.2 hq2
            exact hrec.2.2 (Or.inr ⟨e, he, he2⟩)
          · exact hrec.2.2 (Or.inl ⟨q, hq', hq2⟩)
        · exact hrec.2.2 (Or.inr ⟨e, hstep.2.1 e he, he2⟩)

theorem mem_enum_spec (gmap : List (List ℕ)) :
    ∀ p ∈ gmap.enum, p.1 < gmap.length ∧ gmap.getD p.1 [] = p.2 := by
  intro p hp
  obtain ⟨i, hi, heq⟩ := List.mem_iff_getElem.mp hp
  have hi' : i < gmap.length := by simpa using hi
  rw [List.getElem_enum] at heq
  subst heq
  exact ⟨hi', List.getD_eq_getElem gmap [] hi'⟩

theorem exists_enum_of_mem_flatten (gmap : List (List ℕ)) (sc : ℕ)
    (h : sc ∈ gmap.flatten) : ∃ p ∈ gmap.enum, sc ∈ p.2 := by
  obtain ⟨g, hg, hsc⟩ := List.mem_flatten.mp h
  obtain ⟨i, hi, hgi⟩ := List.mem_iff_getElem.mp hg
  have hie : i < gmap.enum.length := by simpa using hi
  have hmem : gmap.enum[i] ∈ gmap.enum := List.getElem_mem hie
  rw [List.getElem_enum] at hmem
  rw [hgi] at hmem
  exact ⟨(i, g), hmem, hsc⟩

theorem foldl_addSelectedConcept_spec (gmap : List (List ℕ)) (S : List ℕ) :
    ∀ (scs : List ℕ) (acc : List (ℕ × List ℕ)),
      RebuildInv gmap S acc →
      RebuildInv gmap S (scs.foldl (addSelectedConcept gmap S) acc)
      ∧ (∀ e ∈ acc, e ∈ scs.foldl (addSelectedConcept gmap S) acc)
      ∧ (∀ sc ∈ scs, sc ∈ gmap.flatten →
          ∃ e ∈ scs.foldl (addSelectedConcept gmap S) acc, sc ∈ gmap.getD e.1 []) := by
  intro scs
  induction scs with
  | nil =>
      intro acc hinv
      exact ⟨hinv, fun e he => he,
        fun sc hsc _ => absurd hsc (List.not_mem_nil sc)⟩
  | cons sc scs' ih =>
      intro acc hinv
      have hscan := foldl_addScan_spec gmap S sc gmap.enum acc
        (mem_enum_spec gmap) hinv
      rw [List.foldl_cons]
      have hrec := ih (addSelectedConcept gmap S acc sc) hscan.1
      refine ⟨hrec.1, ?_, ?_⟩
      · intro e he
        exact hrec.2.1 e (hscan.2.1 e he)
      · intro sc' hsc' hfl
        rcases List.mem_cons.mp hsc' with rfl | hsc''
        · obtain ⟨e, he, he2⟩ :=
            hscan.2.2 (Or.inl (exists_enum_of_mem_flatten gmap sc' hfl))
          exact ⟨e, hrec.2.1 e he, he2⟩
        · exact hrec.2.2 sc' hsc'' hfl

theorem group_index_unique (gmap : List (List ℕ)) (hgm : gmap.flatten.Nodup)
    (i j : ℕ) (hi : i < gmap.length) (hj : j < gmap.length) (sc : ℕ)
    (hsci : sc ∈ gmap.getD i []) (hscj : sc ∈ gmap.getD j []) : i = j := by
  by_contra hne
  have hpw := (List.nodup_flatten.mp hgm).2
  rw [List.pairwise_iff_getElem] at hpw
  rw [List.getD_eq_getElem gmap [] hi] at hsci
  rw [List.getD_eq_getElem gmap [] hj] at hscj
  rcases Nat.lt_or_ge i j with h | h
  · exact hpw i j hi hj h hsci hscj
  · have h' : j < i := by omega
    exact hpw j i hj hi h' hscj hsci

theorem buildGroupMapGo_flatten (sds : List (List ℤ)) :
    ∀ acc, (buildGroupMapGo acc sds).flatten = List.range' acc (totalWidth sds) := by
  induction sds with
  | nil => intro acc; simp [buildGroupMapGo, totalWidth]
  | cons d rest ih =>
      intro acc
      simp only [totalWidth] at ih
      simp only [buildGroupMapGo, List.flatten_cons, totalWidth, List.map_cons,
        List.sum_cons]
      rw [ih]
      have h := List.range'_append acc (if d.length > 2 then d.length else 1)
        ((rest.map (fun digits => if digits.length > 2 then digits.length else 1)).sum) 1
      simp only [one_mul] at h
      rw [h, Nat.add_comm]

theorem flatten_map_singleton (l : List ℕ) :
    (l.map (fun i => [i])).flatten = l := by
  induction l with
  | nil => simp
  | cons a rest ih => simp [ih]

theorem groupModeSelected_nodup (gmap : List (List ℕ)) (selGroups : List ℕ) :
    (groupModeSelected gmap selGroups).Nodup := by
  unfold groupModeSelected
  exact ((List.mergeSort_perm _ _).symm).nodup (List.nodup_dedup _)

theorem mem_groupModeSelected (gmap : List (List ℕ)) (selGroups : List ℕ) (oc : ℕ) :
    oc ∈ groupModeSelected gmap selGroups
      ↔ ∃ gi ∈ selGroups, oc ∈ gmap.getD gi [] := by
  unfold groupModeSelected
  rw [List.mem_mergeSort, List.mem_dedup, List.mem_flatten]
  constructor
  · rintro ⟨g, hg, hoc⟩
    obtain ⟨gi, hgi, hggi⟩ := List.mem_map.mp hg
    exact ⟨gi, hgi, by rwa [hggi]⟩
  · rintro ⟨gi, hgi, hoc⟩
    exact ⟨gmap.getD gi [], List.mem_map_of_mem _ hgi, hoc⟩

theorem groupModeSelected_sub (gmap : List (List ℕ)) (selGroups : List ℕ) :
    ∀ oc ∈ groupModeSelected gmap selGroups, oc ∈ gmap.flatten := by
  intro oc hoc
  obtain ⟨gi, _, hmem⟩ := (mem_groupModeSelected gmap selGroups oc).mp hoc
  by_cases hlt : gi < gmap.length
  · rw [List.getD_eq_getElem gmap [] hlt] at hmem
    exact List.mem_flatten.mpr ⟨gmap[gi], List.getElem_mem hlt, hmem⟩
  · rw [List.getD_eq_default] at hmem
    · exact absurd hmem (List.not_mem_nil oc)
    · omega

theorem rebuild_partition (gmap : List (List ℕ)) (S : List ℕ)
    (hgm : gmap.flatten.Nodup) (hS : S.Nodup)
    (hsub : ∀ s ∈ S, s ∈ gmap.flatten) :
    List.Pairwise List.Disjoint ((rebuildGroupMap gmap S).map Prod.snd)
    ∧ ((rebuildGroupMap gmap S).map Prod.snd).flatten.Perm (List.range S.length) := by
  have hfold := foldl_addSelectedConcept_spec gmap S S []
    ⟨by simp, List.nodup_nil⟩
  have hinv : RebuildInv gmap S (rebuildGroupMap gmap S) := hfold.1
  have hcov : ∀ s ∈ S, ∃ e ∈ rebuildGroupMap gmap S, s ∈ gmap.getD e.1 [] :=
    fun s hs => hfold.2.2 s hs (hsub s hs)
  have hval : ∀ e ∈ rebuildGroupMap gmap S, ∀ v ∈ e.2,
      ∃ a, a ∈ S ∧ a ∈ gmap.getD e.1 [] ∧ S.indexOf a = v := by
    intro e he v hv
    rw [(hinv.1 e he).2] at hv
    obtain ⟨oc, hoc, hoci⟩ := List.mem_map.mp hv
    have hcf := List.mem_filter.mp hoc
    exact ⟨oc, by simpa using hcf.2, hcf.1, hoci⟩
  have hkeys : List.Pairwise (fun e e' : ℕ × List ℕ => e.1 ≠ e'.1)
      (rebuildGroupMap gmap S) := List.pairwise_map.mp hinv.2
  have hdisj : List.Pairwise (fun e e' : ℕ × List ℕ => e.2.Disjoint e'.2)
      (rebuildGroupMap gmap S) := by
    refine hkeys.imp_of_mem ?_
    intro e e' he he' hne v hv hv'
    obtain ⟨a, haS, haG, haI⟩ := hval e he v hv
    obtain ⟨b, hbS, hbG, hbI⟩ := hval e' he' v hv'
    have hab : a = b := (List.indexOf_inj haS hbS).mp (by rw [haI, hbI])
    subst hab
    exact hne (group_index_unique gmap hgm e.1 e'.1 (hinv.1 e he).1
      (hinv.1 e' he').1 a haG hbG)
  have hdisj2 : List.Pairwise List.Disjoint ((rebuildGroupMap gmap S).map Prod.snd) :=
    List.pairwise_map.mpr hdisj
  refine ⟨hdisj2, ?_⟩
  have hnodup_each : ∀ l ∈ (rebuildGroupMap gmap S).map Prod.snd, l.Nodup := by
    intro l hl
    obtain ⟨e, he, rfl⟩ := List.mem_map.mp hl
    rw [(hinv.1 e he).2]
    apply List.Nodup.map_on
    · intro x hx y hy hxy
      have hxS : x ∈ S := by simpa using (List.mem_filter.mp hx).2
      have hyS : y ∈ S := by simpa using (List.mem_filter.mp hy).2
      exact (List.indexOf_inj hxS hyS).mp hxy
    · apply List.Nodup.filter
      have hlt := (hinv.1 e he).1
      rw [List.getD_eq_getElem gmap [] hlt]
      exact (List.nodup_flatten.mp hgm).1 _ (List.getElem_mem hlt)
  have hnodupflat : ((rebuildGroupMap gmap S).map Prod.snd).flatten.Nodup :=
    List.nodup_flatten.mpr ⟨hnodup_each, hdisj2⟩
  rw [List.perm_ext_iff_of_nodup hnodupflat (List.nodup_range S.length)]
  intro v
  rw [List.mem_flatten, List.mem_range]
  constructor
  · rintro ⟨l, hl, hv⟩
    obtain ⟨e, he, rfl⟩ := List.mem_map.mp hl
    obtain ⟨a, haS, _, haI⟩ := hval e he v hv
    rw [← haI]
    exact List.indexOf_lt_length.mpr haS
  · intro hv
    have haS : S.get ⟨v, hv⟩ ∈ S := List.get_mem S v hv
    obtain ⟨e, he, heg⟩ := hcov _ haS
    refine ⟨e.2, List.mem_map_of_mem _ he, ?_⟩
    rw [(hinv.1 e he).2]
    have hmf : S.get ⟨v, hv⟩ ∈ (gmap.getD e.1 []).filter (fun oc => decide (oc ∈ S)) :=
      List.mem_filter.mpr ⟨heg, by simpa using haS⟩
    have h2 := List.mem_map_of_mem (fun oc => S.indexOf oc) hmf
    have h3 : List.indexOf (S.get ⟨v, hv⟩) S
        ∈ List.map (fun oc => List.indexOf oc S)
          (List.filter (fun oc => decide (oc ∈ S)) (gmap.getD e.1 [])) := h2
    rwa [List.get_indexOf hS ⟨v, hv⟩] at h3

theorem rebuild_group_integrity (gmap : List (List ℕ)) (hgm : gmap.flatten.Nodup)
    (selGroups : List ℕ) (gi : ℕ) (hgi : gi ∈ selGroups) (hlt : gi < gmap.length) :
    (gmap.getD gi []).filter
        (fun oc => decide (oc ∈ groupModeSelected gmap selGroups))
      = gmap.getD gi []
    ∧ (gmap.getD gi [] ≠ [] →
        (gi, (gmap.getD gi []).map
            (fun oc => (groupModeSelected gmap selGroups).indexOf oc))
          ∈ rebuildGroupMap gmap (groupModeSelected gmap selGroups)) := by
  have hfull : ∀ oc ∈ gmap.getD gi [], oc ∈ groupModeSelected gmap selGroups :=
    fun oc hoc => (mem_groupModeSelected gmap selGroups oc).mpr ⟨gi, hgi, hoc⟩
  have hfiltfull : (gmap.getD gi []).filter
      (fun oc => decide (oc ∈ groupModeSelected gmap selGroups)) = gmap.getD gi [] := by
    apply List.filter_eq_self.mpr
    intro oc hoc
    simpa using hfull oc hoc
  refine ⟨hfiltfull, ?_⟩
  intro hne
  obtain ⟨s, hs⟩ := List.exists_mem_of_ne_nil _ hne
  have hsS : s ∈ groupModeSelected gmap selGroups := hfull s hs
  have hsfl : s ∈ gmap.flatten := by
    rw [List.getD_eq_getElem gmap [] hlt] at hs
    exact List.mem_flatten.mpr ⟨gmap[gi], List.getElem_mem hlt, hs⟩
  have hfold := foldl_addSelectedConcept_spec gmap (groupModeSelected gmap selGroups)
    (groupModeSelected gmap selGroups) [] ⟨by simp, List.nodup_nil⟩
  have hinv := hfold.1
  obtain ⟨e, he, heg⟩ := hfold.2.2 s hsS hsfl
  have hkey : e.1 = gi := group_index_unique gmap hgm e.1 gi (hinv.1 e he).1 hlt s heg hs
  have hcontent := (hinv.1 e he).2
  rw [hkey, hfiltfull] at hcontent
  have hee : e = (gi, (gmap.getD gi []).map
      (fun oc => (groupModeSelected gmap selGroups).indexOf oc)) :=
    Prod.ext hkey hcontent
  rw [← hee]
  exact he

/-- C8: the concept-group map built by `generate_data` partitions
`[0, num_concepts)` with no overlap — consecutive blocks in the default branch
(lines 530-537), singletons under even-concepts (line 528) — and concept
subsampling preserves the invariant: for any duplicate-free selection drawn
from the map's concepts, the rebuilt map's groups (lines 582-596) are pairwise
disjoint and jointly cover exactly `[0, new_concept_count)` with
`new_concept_count = |selection|`; and in group mode (lines 561-566) no
concept group is split — every selected group keeps all its member concepts,
remapped into the dense new index space. -/
theorem concept_group_map_partition (sds : List (List ℤ)) (numOperands : ℕ)
    (gmap : List (List ℕ)) (hgm : gmap.flatten.Nodup)
    (S : List ℕ) (hS : S.Nodup) (hsub : ∀ s ∈ S, s ∈ gmap.flatten) :
    ((buildGroupMap sds).flatten = List.range (totalWidth sds)
      ∧ List.Pairwise List.Disjoint (buildGroupMap sds)
      ∧ (evenGroupMap numOperands).flatten = List.range numOperands
      ∧ List.Pairwise List.Disjoint (evenGroupMap numOperands))
    ∧ (List.Pairwise List.Disjoint ((rebuildGroupMap gmap S).map Prod.snd)
      ∧ ((rebuildGroupMap gmap S).map Prod.snd).flatten.Perm (List.range S.length))
    ∧ (∀ (selGroups : List ℕ), ∀ gi ∈ selGroups, gi < gmap.length →
        (gmap.getD gi []).filter
            (fun oc => decide (oc ∈ groupModeSelected gmap selGroups))
          = gmap.getD gi []
        ∧ (gmap.getD gi [] ≠ [] →
          (gi, (gmap.getD gi []).map
              (fun oc => (groupModeSelected gmap selGroups).indexOf oc))
            ∈ rebuildGroupMap gmap (groupModeSelected gmap selGroups))) := by
  have h1 : (buildGroupMap sds).flatten = List.range (totalWidth sds) := by
    unfold buildGroupMap
    rw [buildGroupMapGo_flatten sds 0, List.range_eq_range']
  have h1d : List.Pairwise List.Disjoint (buildGroupMap sds) := by
    have hnd : (buildGroupMap sds).flatten.Nodup := by
      rw [h1]; exact List.nodup_range _
    exact (List.nodup_flatten.mp hnd).2
  have h2 : (evenGroupMap numOperands).flatten = List.range numOperands := by
    unfold evenGroupMap
    exact flatten_map_singleton (List.range numOperands)
  have h2d : List.Pairwise List.Disjoint (evenGroupMap numOperands) := by
    have hnd : (evenGroupMap numOperands).flatten.Nodup := by
      rw [h2]; exact List.nodup_range _
    exact (List.nodup_flatten.mp hnd).2
  refine ⟨⟨h1, h1d, h2, h2d⟩, rebuild_partition gmap S hgm hS hsub, ?_⟩
  intro selGroups gi hgi hlt
  exact rebuild_group_integrity gmap hgm selGroups gi hgi hlt

theorem concept_group_map_partition_witness :
    ([[0, 1, 2], [3]] : List (List ℕ)).flatten.Nodup
      ∧ ([1, 3] : List ℕ).Nodup
      ∧ (buildGroupMap [[0, 1, 2], [0, 1]]).flatten
          = List.range (totalWidth [[0, 1, 2], [0, 1]])
      ∧ ((rebuildGroupMap [[0, 1, 2], [3]] [1, 3]).map Prod.snd).flatten.Perm
          (List.range 2) := by
  have h := concept_group_map_partition [[0, 1, 2], [0, 1]] 2 [[0, 1, 2], [3]]
    (by decide) [1, 3] (by decide) (by decide)
  exact ⟨by decide, by decide, h.1.1, h.2.1.2⟩

end SemiCBM
